import Mathlib

/-!
Verification of the aura-core durable storage core against its design
specification.

The development shallowly embeds the two storage subsystems of the
repository:

* `src/aura/loader.py` — the indexed `.aura` archive writer/reader
  (`AuraWriter`, `AuraReader`).  Files are modelled as lists of bytes
  (`List Nat`); the external serialization libraries (msgpack for
  metadata/index, safetensors for tensors) are modelled as parameters:
  an encoder `List (String × Nat × Nat × Nat) → List Nat` for the index
  together with a decoder, related by a round-trip hypothesis where a
  claim needs it.

* `src/aura/memory.py` — the two-speed write-ahead log (`TwoSpeedWAL`)
  and the three-tier memory store (`AuraMemoryOS`).  WAL/shard files are
  lists of lines; a line is blank, malformed, or a well-formed entry
  (`json.loads` succeeding is modelled by the `WalLine.ok`
  constructor).

All definitions are executable and translated from the source.
-/

/-- Little-endian 4-byte encoding of a natural number below 2^32,
modelling Python struct.pack of an unsigned 32-bit value. -/
def u32le (n : Nat) : List Nat :=
  [n % 256, n / 256 % 256, n / 65536 % 256, n / 16777216 % 256]

/-- Little-endian 8-byte encoding of a natural number below 2^64,
modelling Python struct.pack of an unsigned 64-bit value. -/
def u64le (n : Nat) : List Nat :=
  [n % 256, n / 256 % 256, n / 65536 % 256, n / 16777216 % 256,
   n / 4294967296 % 256, n / 1099511627776 % 256,
   n / 281474976710656 % 256, n / 72057594037927936 % 256]

/-- Little-endian decoding of a byte list, modelling struct.unpack. -/
def decodeLE : List Nat → Nat
  | [] => 0
  | b :: bs => b + 256 * decodeLE bs

/-- The magic constant AURA_MAGIC = bytes of the ASCII string AURA. -/
def magicBytes : List Nat := [65, 85, 82, 65]

/-- State of an `AuraWriter`: the bytes written so far to the output
file, the in-memory index mapping id to (offset, meta_len, tensor_len)
in insertion order (Python dicts preserve insertion order), and the
closed flag.  The file offset (`tell()`) is always `file.length`
because the writer only appends. -/
structure WriterState where
  file : List Nat
  index : List (String × Nat × Nat × Nat)
  closed : Bool
deriving DecidableEq

/-- A freshly opened `AuraWriter`: empty file, empty index, not closed. -/
def freshWriter : WriterState := ⟨[], [], false⟩

/-- Failure conditions of `AuraWriter.append_datapoint`: RuntimeError on
a closed writer, ValueError on a duplicate id, struct.error when a
length does not fit an unsigned 32-bit field. -/
inductive WErr
  | closedWriter
  | duplicateId
  | packError
deriving DecidableEq

/-- Model of `AuraWriter.append_datapoint`, taking the already
serialized metadata bytes `m` (msgpack of the prepared dict) and tensor
bytes `t` (safetensors buffer).  Mirrors the source order: closed
check, duplicate check, record offset, write
`[meta_len:u32][tensor_len:u32][meta][tensors]`, extend the index.
When the tensor length overflows u32, the meta-length header has
already been written (struct.pack is evaluated per write call). -/
def appendD (s : WriterState) (id : String) (m t : List Nat) :
    WriterState × Option WErr :=
  if s.closed then (s, some WErr.closedWriter)
  else if (s.index.lookup id).isSome then (s, some WErr.duplicateId)
  else if 4294967296 ≤ m.length then (s, some WErr.packError)
  else if 4294967296 ≤ t.length then
    ({ s with file := s.file ++ u32le m.length }, some WErr.packError)
  else
    ({ file := s.file ++ u32le m.length ++ u32le t.length ++ m ++ t,
       index := s.index ++ [(id, (s.file.length, m.length, t.length))],
       closed := false }, none)

/-- Model of `AuraWriter.close`, parameterized by the index serializer
`enc` (msgpack.packb of the index dict).  The first call appends the
serialized index, then the footer `[index_offset:u64][magic]`, and
marks the writer closed; on a closed writer it is a no-op. -/
def closeD (enc : List (String × Nat × Nat × Nat) → List Nat)
    (s : WriterState) : WriterState :=
  if s.closed then s
  else { file := s.file ++ enc s.index ++ u64le s.file.length ++ magicBytes,
         index := s.index, closed := true }

/-- Append a list of records (id, metaBytes, tensorBytes) in order,
stopping at the first failure, as a sequence of `append_datapoint`
calls would. -/
def appendAllD : WriterState → List (String × List Nat × List Nat) →
    WriterState × Option WErr
  | s, [] => (s, none)
  | s, r :: rs =>
    match appendD s r.1 r.2.1 r.2.2 with
    | (s1, none) => appendAllD s1 rs
    | (s1, some e) => (s1, some e)

/-- Failure condition of `AuraReader.__init__`: ValueError when the
trailing magic bytes mismatch. -/
inductive RErr
  | invalidMagic
deriving DecidableEq

/-- The last `n` bytes of a file, as read by seek(-n, 2) followed by
read(n). -/
def lastBytes (n : Nat) (f : List Nat) : List Nat :=
  f.drop (f.length - n)

/-- Model of `AuraReader._validate_magic` followed by
`AuraReader._read_index` up to deserialization: check the last 4 bytes
against the magic, decode the 8 bytes before the magic as the index
offset, and return the raw index block of length
`file_size - 12 - index_offset` starting at the index offset. -/
def readerOpenBytes (f : List Nat) : Except RErr (List Nat) :=
  if lastBytes 4 f = magicBytes then
    Except.ok ((f.drop (decodeLE ((lastBytes 12 f).take 8))).take
      (f.length - 12 - decodeLE ((lastBytes 12 f).take 8)))
  else Except.error RErr.invalidMagic

/-- The reader's in-memory index: the raw index block deserialized by
the index decoder `dec` (msgpack.unpackb). -/
def readerIndex
    (dec : List Nat → Option (List (String × Nat × Nat × Nat)))
    (f : List Nat) : Option (List (String × Nat × Nat × Nat)) :=
  match readerOpenBytes f with
  | Except.ok bs => dec bs
  | Except.error _ => none

/-- Model of `AuraReader.read_datapoint`: look the id up in the index,
seek to its offset, skip the 8 header bytes, read meta_len bytes of
metadata and then tensor_len bytes of tensors. -/
def readDatapoint (f : List Nat) (index : List (String × Nat × Nat × Nat))
    (id : String) : Option (List Nat × List Nat) :=
  match index.lookup id with
  | none => none
  | some (off, ml, tl) =>
    some ((f.drop (off + 8)).take ml, (f.drop (off + 8 + ml)).take tl)

/-- The full reader pipeline on a finalized file: open, load the index,
and read one datapoint by id. -/
def readById (dec : List Nat → Option (List (String × Nat × Nat × Nat)))
    (f : List Nat) (id : String) : Option (List Nat × List Nat) :=
  match readerIndex dec f with
  | none => none
  | some ix => readDatapoint f ix id

/-- Decoding a little-endian 8-byte encoding recovers the value when it
fits in 64 bits. -/
theorem decodeLE_u64le (n : Nat) (h : n < 18446744073709551616) :
    decodeLE (u64le n) = n := by
  simp only [u64le, decodeLE]
  omega

/-- The u64 encoding always has exactly 8 bytes. -/
theorem u64le_length (n : Nat) : (u64le n).length = 8 := rfl

/-- Slicing entirely inside the left part of an append ignores the
right part. -/
theorem slice_append {l l2 : List Nat} {o n : Nat} (h : o + n ≤ l.length) :
    ((l ++ l2).drop o).take n = (l.drop o).take n := by
  rw [List.drop_append_of_le_length (by omega)]
  exact List.take_append_of_le_length (by simp; omega)

/-- Looking up a key found in the left part of an appended association
list ignores the right part. -/
theorem lookup_append_some {l l2 : List (String × Nat × Nat × Nat)}
    {k : String} {v : Nat × Nat × Nat} (h : l.lookup k = some v) :
    (l ++ l2).lookup k = some v := by
  simp [List.lookup_append, h]

/-- Looking up a key absent from the left part of an appended
association list falls through to the right part. -/
theorem lookup_append_none {l l2 : List (String × Nat × Nat × Nat)}
    {k : String} (h : l.lookup k = none) :
    (l ++ l2).lookup k = l2.lookup k := by
  simp [List.lookup_append, h]

/-- Dropping the length of the left part plus `k` lands `k` bytes into
the right part. -/
theorem drop_append_add (X Y : List Nat) (k : Nat) :
    (X ++ Y).drop (X.length + k) = Y.drop k := by
  rw [← List.drop_drop, List.drop_left]

/-- The writer state `s` faithfully stores record `r`: the index maps
the record id to an in-range offset and the two lengths, and the byte
slices at that offset (after the 8-byte header) are exactly the
record's metadata and tensor bytes. -/
def Covers (s : WriterState) (r : String × List Nat × List Nat) : Prop :=
  ∃ off, s.index.lookup r.1 = some (off, r.2.1.length, r.2.2.length) ∧
    off + 8 + r.2.1.length + r.2.2.length ≤ s.file.length ∧
    (s.file.drop (off + 8)).take r.2.1.length = r.2.1 ∧
    (s.file.drop (off + 8 + r.2.1.length)).take r.2.2.length = r.2.2

/-- Extending the file at the end and the index at the end preserves
every stored record. -/
theorem covers_extend {s : WriterState} {r : String × List Nat × List Nat}
    (ext : List Nat) (more : List (String × Nat × Nat × Nat))
    (h : Covers s r) :
    Covers { file := s.file ++ ext, index := s.index ++ more,
             closed := s.closed } r := by
  obtain ⟨off, hl, hb, hm, ht⟩ := h
  refine ⟨off, lookup_append_some hl, by simp; omega, ?_, ?_⟩
  · rw [slice_append (by omega), hm]
  · rw [slice_append (by omega), ht]

/-- The byte slices of a freshly written record
`header ++ header ++ meta ++ tensors` at its offset recover the
metadata and tensor bytes. -/
theorem record_slices (A h1 h2 m t : List Nat)
    (hh1 : h1.length = 4) (hh2 : h2.length = 4) :
    ((A ++ h1 ++ h2 ++ m ++ t).drop (A.length + 8)).take m.length = m ∧
    ((A ++ h1 ++ h2 ++ m ++ t).drop (A.length + 8 + m.length)).take t.length = t := by
  have e : A ++ h1 ++ h2 ++ m ++ t = (A ++ h1 ++ h2) ++ (m ++ t) := by
    simp [List.append_assoc]
  have elen : (A ++ h1 ++ h2).length = A.length + 8 := by
    simp only [List.length_append, hh1, hh2]
  constructor
  · rw [e, List.drop_left' elen, List.take_append_of_le_length (by simp),
      List.take_length]
  · have e2 : A ++ h1 ++ h2 ++ m ++ t = ((A ++ h1 ++ h2) ++ m) ++ t := by
      simp [List.append_assoc]
    have elen2 : ((A ++ h1 ++ h2) ++ m).length = A.length + 8 + m.length := by
      simp only [List.length_append, hh1, hh2]
    rw [e2, List.drop_left' elen2, List.take_length]

/-- On an open writer, a fresh id, and in-range lengths,
`append_datapoint` succeeds and produces exactly the new file and
index. -/
theorem appendD_ok {s : WriterState} {id : String} {m t : List Nat}
    (hc : s.closed = false) (hd : s.index.lookup id = none)
    (hm : m.length < 4294967296) (ht : t.length < 4294967296) :
    appendD s id m t =
      ({ file := s.file ++ u32le m.length ++ u32le t.length ++ m ++ t,
         index := s.index ++ [(id, (s.file.length, m.length, t.length))],
         closed := false }, none) := by
  simp [appendD, hc, hd, Nat.not_le.mpr hm, Nat.not_le.mpr ht]

/-- After a successful append, the state stores the new record. -/
theorem appendD_covers_new {s : WriterState} {id : String} {m t : List Nat}
    (hd : s.index.lookup id = none) :
    Covers { file := s.file ++ u32le m.length ++ u32le t.length ++ m ++ t,
             index := s.index ++ [(id, (s.file.length, m.length, t.length))],
             closed := false } (id, m, t) := by
  refine ⟨s.file.length, ?_, by simp [u32le]; omega, ?_, ?_⟩
  · rw [lookup_append_none hd]
    simp [List.lookup_cons]
  · exact (record_slices s.file (u32le m.length) (u32le t.length) m t rfl rfl).1
  · exact (record_slices s.file (u32le m.length) (u32le t.length) m t rfl rfl).2

/-- Appending a batch of records with fresh, pairwise-distinct ids and
in-range lengths to an open writer succeeds, keeps the writer open,
preserves every already-stored record, and stores every appended
record. -/
theorem appendAll_ok :
    ∀ (rs : List (String × List Nat × List Nat)) (s : WriterState),
    s.closed = false →
    (∀ r ∈ rs, r.2.1.length < 4294967296 ∧ r.2.2.length < 4294967296) →
    (∀ r ∈ rs, s.index.lookup r.1 = none) →
    (rs.map (fun r => r.1)).Nodup →
    (appendAllD s rs).2 = none ∧ (appendAllD s rs).1.closed = false ∧
    (∀ r, Covers s r → Covers (appendAllD s rs).1 r) ∧
    (∀ r ∈ rs, Covers (appendAllD s rs).1 r)
  | [], s, hc, _, _, _ => by
    simp [appendAllD, hc]
  | r :: rs, s, hc, hlen, hfresh, hnodup => by
    have hm := (hlen r (by simp)).1
    have ht := (hlen r (by simp)).2
    have hd := hfresh r (by simp)
    have heq := appendD_ok hc hd hm ht
    set s1 : WriterState :=
      { file := s.file ++ u32le r.2.1.length ++ u32le r.2.2.length ++ r.2.1 ++ r.2.2,
        index := s.index ++ [(r.1, (s.file.length, r.2.1.length, r.2.2.length))],
        closed := false } with hs1
    have hstep : appendAllD s (r :: rs) = appendAllD s1 rs := by
      simp [appendAllD, heq]
    have hfresh1 : ∀ r2 ∈ rs, s1.index.lookup r2.1 = none := by
      intro r2 hr2
      have hne : (r2.1 == r.1) = false := by
        have : r2.1 ≠ r.1 := by
          intro hcontra
          exact (List.nodup_cons.mp hnodup).1
            (List.mem_map.mpr ⟨r2, hr2, hcontra⟩)
        exact beq_eq_false_iff_ne.mpr this
      rw [hs1]
      simp only []
      rw [lookup_append_none (hfresh r2 (by simp [hr2]))]
      simp [List.lookup_cons, hne]
    have ih := appendAll_ok rs s1 rfl
      (fun r2 hr2 => hlen r2 (by simp [hr2])) hfresh1
      (List.nodup_cons.mp hnodup).2
    refine ⟨hstep ▸ ih.1, hstep ▸ ih.2.1, ?_, ?_⟩
    · intro r2 hcov
      rw [hstep]
      refine ih.2.2.1 r2 ?_
      have := covers_extend
        (u32le r.2.1.length ++ u32le r.2.2.length ++ r.2.1 ++ r.2.2)
        [(r.1, (s.file.length, r.2.1.length, r.2.2.length))] hcov
      rw [hs1]
      rw [hc] at this
      convert this using 2
      simp [List.append_assoc]
    · intro r2 hr2
      rcases List.mem_cons.mp hr2 with h | h
      · subst h
        rw [hstep]
        exact ih.2.2.1 r2 (appendD_covers_new hd)
      · exact hstep ▸ ih.2.2.2 r2 h

/-- Closing an open writer preserves every stored record: the file only
grows at the end and the index is unchanged. -/
theorem covers_close {s : WriterState} {r : String × List Nat × List Nat}
    (enc : List (String × Nat × Nat × Nat) → List Nat)
    (hc : s.closed = false) (h : Covers s r) :
    Covers (closeD enc s) r := by
  obtain ⟨off, hl, hb, hm, ht⟩ := h
  simp only [closeD, hc, if_neg Bool.false_ne_true]
  refine ⟨off, hl, by simp only [WriterState.file, List.length_append]; omega, ?_, ?_⟩
  · dsimp only
    rw [slice_append (by simp only [List.length_append]; omega),
      slice_append (by simp only [List.length_append]; omega),
      slice_append (by omega), hm]
  · dsimp only
    rw [slice_append (by simp only [List.length_append]; omega),
      slice_append (by simp only [List.length_append]; omega),
      slice_append (by omega), ht]

/-- Opening the file produced by closing an open writer validates the
magic and returns exactly the serialized index block. -/
theorem readerOpenBytes_close
    (enc : List (String × Nat × Nat × Nat) → List Nat)
    (s : WriterState) (hc : s.closed = false)
    (hlen : s.file.length < 18446744073709551616) :
    readerOpenBytes (closeD enc s).file = Except.ok (enc s.index) := by
  simp only [closeD, hc, if_neg Bool.false_ne_true]
  have e1 : s.file ++ enc s.index ++ u64le s.file.length ++ magicBytes =
      (s.file ++ enc s.index ++ u64le s.file.length) ++ magicBytes := by
    simp [List.append_assoc]
  have hL : (s.file ++ enc s.index ++ u64le s.file.length ++ magicBytes).length =
      s.file.length + (enc s.index).length + 12 := by
    simp [u64le_length, magicBytes]
    omega
  have hmagic : lastBytes 4
      (s.file ++ enc s.index ++ u64le s.file.length ++ magicBytes) = magicBytes := by
    rw [lastBytes, hL, e1]
    refine List.drop_left' ?_
    simp [u64le_length, magicBytes]
    omega
  have e2 : s.file ++ enc s.index ++ u64le s.file.length ++ magicBytes =
      (s.file ++ enc s.index) ++ (u64le s.file.length ++ magicBytes) := by
    simp [List.append_assoc]
  have hfoot : lastBytes 12
      (s.file ++ enc s.index ++ u64le s.file.length ++ magicBytes) =
      u64le s.file.length ++ magicBytes := by
    rw [lastBytes, hL, e2]
    refine List.drop_left' ?_
    simp
  have hoff : decodeLE ((lastBytes 12
      (s.file ++ enc s.index ++ u64le s.file.length ++ magicBytes)).take 8) =
      s.file.length := by
    rw [hfoot, List.take_left' (u64le_length s.file.length)]
    exact decodeLE_u64le s.file.length hlen
  have e3 : s.file ++ enc s.index ++ u64le s.file.length ++ magicBytes =
      s.file ++ (enc s.index ++ (u64le s.file.length ++ magicBytes)) := by
    simp [List.append_assoc]
  rw [readerOpenBytes, if_pos hmagic, hoff, hL, e3, List.drop_left]
  have : s.file.length + (enc s.index).length + 12 - 12 - s.file.length =
      (enc s.index).length := by omega
  rw [this, List.take_append_of_le_length (by simp), List.take_length]

/-- Reading an id through the full reader pipeline on a state that
stores record `r`, when opening the state's file recovers the state's
index, returns the record's bytes. -/
theorem readById_of_covers {s : WriterState}
    {r : String × List Nat × List Nat}
    {dec : List Nat → Option (List (String × Nat × Nat × Nat))}
    (hindex : readerIndex dec s.file = some s.index)
    (h : Covers s r) :
    readById dec s.file r.1 = some (r.2.1, r.2.2) := by
  obtain ⟨off, hl, _, hm, ht⟩ := h
  rw [readById, hindex]
  simp only [readDatapoint, hl, hm, ht]

/-- A concrete, fully executable stand-in for the msgpack index codec:
an index is mapped injectively to a natural number via the `Encodable`
instance (strings going through their character codes) and stored as a
one-element byte list. -/
def strN (s : String) : List Nat := s.toList.map Char.toNat

/-- Inverse of `strN` on character codes. -/
def natStr (l : List Nat) : String := String.mk (l.map Char.ofNat)

/-- Concrete index encoder used to instantiate codec hypotheses. -/
def encIxModel (ix : List (String × Nat × Nat × Nat)) : List Nat :=
  [Encodable.encode (ix.map (fun r => (strN r.1, r.2)))]

/-- Concrete index decoder used to instantiate codec hypotheses. -/
def decIxModel (bs : List Nat) : Option (List (String × Nat × Nat × Nat)) :=
  match bs with
  | [n] => (Encodable.decode n : Option (List (List Nat × Nat × Nat × Nat))).map
      (List.map (fun r => (natStr r.1, r.2)))
  | _ => none

/-- The concrete codec round-trips every index. -/
theorem decIxModel_encIxModel (ix : List (String × Nat × Nat × Nat)) :
    decIxModel (encIxModel ix) = some ix := by
  have hstr : ∀ s : String, natStr (strN s) = s := by
    intro s
    cases s with
    | mk data =>
      simp [natStr, strN, List.map_map, Function.comp_def, Char.ofNat_toNat,
        String.toList]
  simp [encIxModel, decIxModel, Encodable.encodek, List.map_map,
    Function.comp_def, hstr]

/-- Opening the finalized file recovers the writer's in-memory index
whenever the index codec round-trips. -/
theorem readerIndex_close
    (enc : List (String × Nat × Nat × Nat) → List Nat)
    (dec : List Nat → Option (List (String × Nat × Nat × Nat)))
    (hcodec : ∀ ix, dec (enc ix) = some ix)
    (s : WriterState) (hc : s.closed = false)
    (hlen : s.file.length < 18446744073709551616) :
    readerIndex dec (closeD enc s).file = some (closeD enc s).index := by
  rw [readerIndex]
  rw [readerOpenBytes_close enc s hc hlen]
  simp [closeD, hc, hcodec]

/-- C1: for every finite sequence of records with pairwise-distinct
ids (and serialized lengths that fit the u32 header fields and a total
file below 2^64 bytes, as the binary format requires), appending them
all via append_datapoint succeeds, and after close and reopen,
read_datapoint on each id returns metadata bytes and tensor bytes
identical to what was written for that id.  The msgpack index codec is
any encoder/decoder pair that round-trips. -/
theorem aura_roundtrip_bytes
    (enc : List (String × Nat × Nat × Nat) → List Nat)
    (dec : List Nat → Option (List (String × Nat × Nat × Nat)))
    (hcodec : ∀ ix, dec (enc ix) = some ix)
    (rs : List (String × List Nat × List Nat))
    (hnodup : (rs.map (fun r => r.1)).Nodup)
    (hlens : ∀ r ∈ rs, r.2.1.length < 4294967296 ∧ r.2.2.length < 4294967296)
    (hfl : (appendAllD freshWriter rs).1.file.length < 18446744073709551616) :
    (appendAllD freshWriter rs).2 = none ∧
    ∀ r ∈ rs, readById dec (closeD enc (appendAllD freshWriter rs).1).file r.1 =
      some (r.2.1, r.2.2) := by
  have h := appendAll_ok rs freshWriter rfl hlens (fun r _ => rfl) hnodup
  refine ⟨h.1, ?_⟩
  intro r hr
  exact readById_of_covers
    (readerIndex_close enc dec hcodec _ h.2.1 hfl)
    (covers_close enc h.2.1 (h.2.2.2 r hr))

/-- Witness for C1 at a concrete two-record batch and the concrete
executable index codec. -/
theorem aura_roundtrip_bytes_witness :
    (appendAllD freshWriter [("a", [1], [2, 3]), ("b", [], [7])]).2 = none ∧
    ∀ r ∈ [(("a" : String), ([1] : List Nat), ([2, 3] : List Nat)), ("b", [], [7])],
      readById decIxModel
        (closeD encIxModel
          (appendAllD freshWriter [("a", [1], [2, 3]), ("b", [], [7])]).1).file r.1 =
      some (r.2.1, r.2.2) :=
  aura_roundtrip_bytes encIxModel decIxModel decIxModel_encIxModel
    [("a", [1], [2, 3]), ("b", [], [7])] (by decide) (by decide) (by decide)

/-- C2: appending an id already present in the in-memory index of an
open writer fails with the DuplicateId condition and leaves the state
— index, file contents, and hence the file offset — unchanged: the
rejection happens before any write. -/
theorem append_duplicate_rejected (s : WriterState) (id : String)
    (m t : List Nat) (v : Nat × Nat × Nat)
    (hc : s.closed = false) (hdup : s.index.lookup id = some v) :
    appendD s id m t = (s, some WErr.duplicateId) := by
  simp [appendD, hc, hdup]

/-- Witness for C2 at a concrete writer whose index already holds the
id. -/
theorem append_duplicate_rejected_witness :
    appendD ⟨[0], [("a", (0, 1, 1))], false⟩ "a" [5] [6] =
      (⟨[0], [("a", (0, 1, 1))], false⟩, some WErr.duplicateId) :=
  append_duplicate_rejected ⟨[0], [("a", (0, 1, 1))], false⟩ "a" [5] [6]
    (0, 1, 1) rfl (by decide)

/-- C8: close on an open writer writes the serialized index at the
current offset followed by the 12-byte footer and marks the writer
closed; a second close is a no-op; and append after close fails with
the ClosedWriter condition. -/
theorem writer_close_spec
    (enc : List (String × Nat × Nat × Nat) → List Nat) (s : WriterState)
    (hc : s.closed = false) :
    (closeD enc s).file =
      s.file ++ enc s.index ++ u64le s.file.length ++ magicBytes ∧
    (closeD enc s).index = s.index ∧
    (closeD enc s).closed = true ∧
    closeD enc (closeD enc s) = closeD enc s ∧
    ∀ id m t, appendD (closeD enc s) id m t =
      (closeD enc s, some WErr.closedWriter) := by
  simp [closeD, hc, appendD]

/-- Witness for C8 at a fresh writer and a trivial index encoder. -/
theorem writer_close_spec_witness :
    (closeD (fun _ => []) freshWriter).file =
      freshWriter.file ++ (fun _ => ([] : List Nat)) freshWriter.index ++
        u64le freshWriter.file.length ++ magicBytes ∧
    (closeD (fun _ => []) freshWriter).index = freshWriter.index ∧
    (closeD (fun _ => []) freshWriter).closed = true ∧
    closeD (fun _ => []) (closeD (fun _ => []) freshWriter) =
      closeD (fun _ => []) freshWriter ∧
    ∀ id m t, appendD (closeD (fun _ => []) freshWriter) id m t =
      (closeD (fun _ => []) freshWriter, some WErr.closedWriter) :=
  writer_close_spec (fun _ => []) freshWriter rfl

/-- Values of a metadata mapping (the msgpack-serializable scalars
relevant to the claims). -/
inductive MVal where
  | str (s : String)
  | num (n : Int)
deriving DecidableEq

/-- Python dict assignment d[k] = v: if the key exists its value is
overwritten in place (insertion position kept), otherwise the pair is
appended at the end. -/
def dictSet : List (String × MVal) → String → MVal → List (String × MVal)
  | [], k, v => [(k, v)]
  | (k1, v1) :: rest, k, v =>
    if k1 = k then (k, v) :: rest else (k1, v1) :: dictSet rest k v

/-- Model of the metadata preparation step of append_datapoint:
meta = metadata or empty-dict, then meta gets key _id set to the
datapoint id.  Returns the dict that is serialized together with the
caller's dict after the call.  Python truthiness: a supplied empty
dict is falsy, so meta becomes a fresh dict and the caller's dict is
not aliased; a supplied non-empty dict is aliased and mutated in
place. -/
def metaEffect (metadata : Option (List (String × MVal))) (id : String) :
    List (String × MVal) × Option (List (String × MVal)) :=
  match metadata with
  | none => (dictSet [] "_id" (MVal.str id), none)
  | some m =>
    if m = [] then (dictSet [] "_id" (MVal.str id), some m)
    else (dictSet m "_id" (MVal.str id), some (dictSet m "_id" (MVal.str id)))

/-- C9 counterexample: when the caller supplies an empty (falsy)
metadata dict, append_datapoint does not mutate it — after the call the
caller's dict is still empty and in particular does not contain the
_id key, refuting the claim that the caller-supplied metadata
dictionary is always mutated in place to contain that key. -/
theorem meta_mutation_cex :
    (metaEffect (some []) "x").2 = some [] ∧
    ((metaEffect (some []) "x").2.getD []).lookup "_id" = none := by
  constructor
  · rfl
  · rfl

/-- C9 amended: the metadata serialized into the archive — and read
back byte-identically by read_datapoint — is the supplied mapping
extended with the key _id bound to the datapoint id; the
caller-supplied dictionary is mutated in place to contain this key
exactly when it is non-empty (truthy), while a supplied empty dict, or
no dict, is left untouched because a fresh dict is used instead. -/
theorem meta_id_spec
    (md : Option (List (String × MVal))) (id : String)
    (encM : List (String × MVal) → List Nat)
    (enc : List (String × Nat × Nat × Nat) → List Nat)
    (dec : List Nat → Option (List (String × Nat × Nat × Nat)))
    (hcodec : ∀ ix, dec (enc ix) = some ix) (t : List Nat)
    (hm : (encM (metaEffect md id).1).length < 4294967296)
    (ht : t.length < 4294967296)
    (hfl : (appendD freshWriter id (encM (metaEffect md id).1) t).1.file.length <
      18446744073709551616) :
    (metaEffect md id).1 = dictSet (md.getD []) "_id" (MVal.str id) ∧
    (∀ m, md = some m → m ≠ [] →
      (metaEffect md id).2 = some (dictSet m "_id" (MVal.str id))) ∧
    (md = some [] → (metaEffect md id).2 = some []) ∧
    (md = none → (metaEffect md id).2 = none) ∧
    readById dec
      (closeD enc (appendD freshWriter id (encM (metaEffect md id).1) t).1).file id =
      some (encM (dictSet (md.getD []) "_id" (MVal.str id)), t) := by
  have hser : (metaEffect md id).1 = dictSet (md.getD []) "_id" (MVal.str id) := by
    match md with
    | none => rfl
    | some m =>
      by_cases hm0 : m = []
      · subst hm0; rfl
      · simp [metaEffect, hm0]
  refine ⟨hser, ?_, ?_, ?_, ?_⟩
  · intro m hmd hm0
    subst hmd
    simp [metaEffect, hm0]
  · intro hmd
    subst hmd
    rfl
  · intro hmd
    subst hmd
    rfl
  · have ha := @appendD_ok freshWriter id (encM (metaEffect md id).1) t
      rfl rfl hm ht
    rw [ha]
    rw [ha] at hfl
    have hcov : Covers (appendD freshWriter id (encM (metaEffect md id).1) t).1
        (id, encM (metaEffect md id).1, t) := by
      rw [ha]
      exact appendD_covers_new (s := freshWriter) rfl
    rw [ha] at hcov
    have hread := readById_of_covers
      (readerIndex_close enc dec hcodec _ rfl hfl)
      (covers_close enc rfl hcov)
    rw [← hser]
    exact hread

/-- Witness for the amended C9 at a concrete non-empty metadata dict,
concrete metadata serializer and the concrete index codec. -/
theorem meta_id_spec_witness :
    (metaEffect (some [("k", MVal.num 1)]) "d").1 =
      dictSet [("k", MVal.num 1)] "_id" (MVal.str "d") ∧
    readById decIxModel
      (closeD encIxModel (appendD freshWriter "d" [0] [9]).1).file "d" =
      some ([0], [9]) := by
  have h := meta_id_spec (some [("k", MVal.num 1)]) "d" (fun _ => [0])
    encIxModel decIxModel decIxModel_encIxModel [9]
    (by decide) (by decide) (by decide)
  exact ⟨h.1, h.2.2.2.2⟩

/-- C5: opening fails with InvalidMagic exactly when the last 4 bytes
of the (at least 4 bytes long) file differ from the magic constant; in
particular dropping the last byte of any file finalized by close makes
open fail with InvalidMagic; and when the magic matches, the index
block is read from the decoded index offset with length
file_size - 12 - index_offset. -/
theorem reader_magic_spec :
    (∀ f : List Nat, 4 ≤ f.length →
      (readerOpenBytes f = Except.error RErr.invalidMagic ↔
        lastBytes 4 f ≠ magicBytes)) ∧
    (∀ (enc : List (String × Nat × Nat × Nat) → List Nat) (s : WriterState),
      s.closed = false →
      readerOpenBytes (closeD enc s).file.dropLast =
        Except.error RErr.invalidMagic) ∧
    (∀ f : List Nat, lastBytes 4 f = magicBytes →
      readerOpenBytes f = Except.ok
        ((f.drop (decodeLE ((lastBytes 12 f).take 8))).take
          (f.length - 12 - decodeLE ((lastBytes 12 f).take 8)))) := by
  refine ⟨?_, ?_, ?_⟩
  · intro f _
    constructor
    · intro herr hmagic
      rw [readerOpenBytes, if_pos hmagic] at herr
      exact absurd herr (by simp)
    · intro hne
      rw [readerOpenBytes, if_neg hne]
  · intro enc s hc
    simp only [closeD, hc, if_neg Bool.false_ne_true]
    set B : List Nat := s.file ++ enc s.index ++ u64le s.file.length with hB
    have hBlen : 8 ≤ B.length := by
      rw [hB]
      simp only [List.length_append, u64le_length]
      omega
    have hsplit : B ++ magicBytes = (B ++ [65, 85, 82]) ++ [65] := by
      simp [magicBytes]
    have hdrop : (B ++ magicBytes).dropLast = B ++ [65, 85, 82] := by
      rw [hsplit, List.dropLast_concat]
    have e1 : s.file ++ enc s.index ++ u64le s.file.length ++ magicBytes =
        B ++ magicBytes := by
      rw [hB]
    rw [e1, hdrop]
    have hlen3 : (B ++ [65, 85, 82]).length = B.length + 3 := by simp
    have htail : lastBytes 4 (B ++ [65, 85, 82]) =
        B.drop (B.length - 1) ++ [65, 85, 82] := by
      rw [lastBytes, hlen3,
        show B.length + 3 - 4 = B.length - 1 by omega,
        List.drop_append_of_le_length (by omega)]
    have hone : (B.drop (B.length - 1)).length = 1 := by
      rw [List.length_drop]
      omega
    have hne : lastBytes 4 (B ++ [65, 85, 82]) ≠ magicBytes := by
      rw [htail]
      match hd : B.drop (B.length - 1), hone2 : (B.drop (B.length - 1)).length with
      | [x], _ => simp [magicBytes]
      | [], h1 => rw [hd] at hone; exact absurd hone (by simp)
      | x :: y :: zs, h1 => rw [hd] at hone; exact absurd hone (by simp)
    rw [readerOpenBytes, if_neg hne]
  · intro f hmagic
    rw [readerOpenBytes, if_pos hmagic]

/-- Witness for C5: a 4-byte non-archive is rejected with InvalidMagic,
and truncating the file of a concretely closed writer is rejected with
InvalidMagic. -/
theorem reader_magic_spec_witness :
    readerOpenBytes [0, 0, 0, 0] = Except.error RErr.invalidMagic ∧
    readerOpenBytes ((closeD (fun _ => []) freshWriter).file.dropLast) =
      Except.error RErr.invalidMagic :=
  ⟨(reader_magic_spec.1 [0, 0, 0, 0] (by decide)).mpr (by decide),
   reader_magic_spec.2.1 (fun _ => []) freshWriter rfl⟩

/-- A memory entry as written to a WAL line by AuraMemoryOS.write
(field namespace is called ns to avoid the Lean keyword). -/
structure MEntry where
  ns : String
  content : String
  timestamp : String
  source : String
  session_id : String
  entry_id : String
  tags : List String
deriving DecidableEq

/-- One line of a WAL or shard file as the readers classify it:
whitespace-only (skipped by the blank check), malformed (json.loads
raises and the line is skipped), or a well-formed serialized entry. -/
inductive WalLine where
  | blank
  | malformed
  | ok (e : MEntry)
deriving DecidableEq

/-- The entries parsed out of a list of lines: blank and malformed
lines are skipped, well-formed entries are kept in order (the common
loop of flush_to_shard, read_wal and the shard scan of query). -/
def parseEntries (lines : List WalLine) : List MEntry :=
  lines.filterMap (fun l => match l with
    | WalLine.ok e => some e
    | _ => none)

/-- WAL_FLUSH_THRESHOLD from the source. -/
def WAL_FLUSH_THRESHOLD : Nat := 100

/-- State of one TwoSpeedWAL: the active log file (none when
active.jsonl does not exist), the in-memory live entry counter, and
the shard directory contents (each shard is the list of entries
written to its file). -/
structure WALState where
  log : Option (List WalLine)
  count : Nat
  shards : List (List MEntry)
deriving DecidableEq

/-- A WAL over an empty directory: no active log, counter 0 (from
counting entries of a non-existent file), no shards. -/
def walEmpty : WALState := ⟨none, 0, []⟩

/-- Speed 1, TwoSpeedWAL.append: serialize the entry as one line,
append it to the active log (creating the file if absent), increment
the counter. -/
def appendW (w : WALState) (e : MEntry) : WALState :=
  { log := some ((w.log.getD []) ++ [WalLine.ok e]),
    count := w.count + 1,
    shards := w.shards }

/-- Appending a batch of entries in order. -/
def appendAllW (w : WALState) (es : List MEntry) : WALState :=
  es.foldl appendW w

/-- TwoSpeedWAL.needs_flush: true exactly when the live counter has
reached the fixed threshold. -/
def needsFlush (w : WALState) : Bool :=
  decide (WAL_FLUSH_THRESHOLD ≤ w.count)

/-- Report of a compiled shard (the fields of ShardInfo the claims
are about; session_ids is a set in the source). -/
structure ShardRes where
  entryCount : Nat
  sessionIds : Finset String
deriving DecidableEq

/-- Speed 2, TwoSpeedWAL.flush_to_shard: no-op returning none when the
active log is absent or the counter is 0; otherwise parse all lines
(skipping blank and malformed ones), still none if no entry parsed;
otherwise write exactly one new shard containing the parsed entries,
delete the active log, and reset the counter to 0. -/
def flushW (w : WALState) : Option ShardRes × WALState :=
  match w.log with
  | none => (none, w)
  | some lines =>
    if w.count = 0 then (none, w)
    else
      match parseEntries lines with
      | [] => (none, w)
      | e :: es =>
        (some ⟨(e :: es).length, ((e :: es).map (fun x => x.session_id)).toFinset⟩,
         { log := none, count := 0, shards := w.shards ++ [e :: es] })

/-- C6: starting from an empty log, after appending K entries the live
counter equals K, and needs_flush is true exactly when K has reached
the fixed threshold of 100; in particular it is false for all
K < 100. -/
theorem wal_accounting_spec (es : List MEntry) :
    (appendAllW walEmpty es).count = es.length ∧
    (needsFlush (appendAllW walEmpty es) = true ↔ 100 ≤ es.length) := by
  have hcount : ∀ (es : List MEntry) (w : WALState),
      (appendAllW w es).count = w.count + es.length := by
    intro es
    induction es with
    | nil => intro w; simp [appendAllW]
    | cons e es ih =>
      intro w
      simp only [appendAllW, List.foldl_cons] at ih ⊢
      rw [ih]
      simp [appendW]
      omega
  constructor
  · rw [hcount]
    simp [walEmpty]
  · rw [needsFlush, hcount]
    simp [WAL_FLUSH_THRESHOLD, walEmpty]

/-- Parsing a log consisting only of well-formed entry lines recovers
exactly those entries. -/
theorem parseEntries_ok (es : List MEntry) :
    parseEntries (es.map WalLine.ok) = es := by
  induction es with
  | nil => rfl
  | cons e es ih =>
    simp only [List.map_cons, parseEntries, List.filterMap_cons] at ih ⊢
    rw [ih]

/-- C3: flush_to_shard on a WAL whose active log holds K well-formed
entries (K at least 1, counter in sync with the log as append
maintains it) produces exactly one new shard containing those K
entries with reported entry_count = K, deletes the active log and
resets the counter to 0; and on a WAL whose log is absent or empty it
returns none and changes nothing. -/
theorem wal_flush_spec :
    (∀ (w : WALState) (es : List MEntry),
      w.log = some (es.map WalLine.ok) → w.count = es.length →
      1 ≤ es.length →
      flushW w = (some ⟨es.length, (es.map (fun x => x.session_id)).toFinset⟩,
        ⟨none, 0, w.shards ++ [es]⟩)) ∧
    (∀ w : WALState, w.log = none ∨ w.log = some [] → flushW w = (none, w)) := by
  constructor
  · intro w es hlog hcount hlen
    cases es with
    | nil => exact absurd hlen (by simp)
    | cons e es2 =>
      have hc0 : ¬ w.count = 0 := by
        rw [hcount]
        simp
      simp only [flushW, hlog, if_neg hc0, parseEntries_ok]
  · intro w h
    rcases h with h | h
    · simp [flushW, h]
    · by_cases hc0 : w.count = 0
      · simp [flushW, h, hc0]
      · simp [flushW, h, hc0, parseEntries]

/-- A concrete memory entry used by witnesses. -/
def entA : MEntry := ⟨"fact", "auth uses jwt", "t0", "agent", "s1", "e1", []⟩

/-- Witness for C3 at a one-entry WAL and at the empty WAL. -/
theorem wal_flush_spec_witness :
    flushW ⟨some ([entA].map WalLine.ok), 1, []⟩ =
      (some ⟨1, ([entA].map (fun x => x.session_id)).toFinset⟩,
        ⟨none, 0, ([] : List (List MEntry)) ++ [[entA]]⟩) ∧
    flushW walEmpty = (none, walEmpty) :=
  ⟨wal_flush_spec.1 ⟨some ([entA].map WalLine.ok), 1, []⟩ [entA] rfl rfl
      (by decide),
   wal_flush_spec.2 walEmpty (Or.inl rfl)⟩

/-- Greedy whitespace tokenizer over characters: groups of
non-whitespace characters, with whitespace runs and empty groups
dropped — the behavior of Python str.split() with no arguments.  The
accumulator holds the current group reversed. -/
def splitWsGo : List Char → List Char → List (List Char)
  | [], acc => if acc = [] then [] else [acc.reverse]
  | c :: cs, acc =>
    if c.isWhitespace then
      (if acc = [] then splitWsGo cs [] else acc.reverse :: splitWsGo cs [])
    else splitWsGo cs (c :: acc)

/-- The set of lowercase words of a text: text.lower().split() made
into a set, as query does for both the query text and each entry's
content. -/
def tokenSet (s : String) : Finset (List Char) :=
  (splitWsGo (s.toList.map Char.toLower) []).toFinset

/-- A shard file as the query and prune scans see it: its namespace
directory, file stem, and lines. -/
structure QShard where
  ns : String
  stem : String
  lines : List WalLine
deriving DecidableEq

/-- The memory store state relevant to query: the active WAL lines per
namespace (self.wals) and the shard files in filesystem enumeration
order. -/
structure MemState where
  wals : List (String × List WalLine)
  shards : List QShard
deriving DecidableEq

/-- The namespaces a store operation iterates: the single requested
one, or all three in declaration order. -/
def scopeNs (nsArg : Option String) : List String :=
  match nsArg with
  | some n => [n]
  | none => ["pad", "episodic", "fact"]

/-- One query result dict: content, namespace, timestamp, source,
relevance score, and location (wal or the shard stem). -/
structure QResult where
  content : String
  ns : String
  timestamp : String
  source : String
  score : ℚ
  location : String
deriving DecidableEq

/-- Score one entry against the query word set: with
overlap = |query_words ∩ content_words|, produce a result scored
overlap / |query_words| when overlap > 0, and nothing otherwise. -/
def mkRes (qws : Finset (List Char)) (n loc : String) (e : MEntry) :
    Option QResult :=
  if 0 < (qws ∩ tokenSet e.content).card then
    some ⟨e.content, n, e.timestamp, e.source,
      ((qws ∩ tokenSet e.content).card : ℚ) / (qws.card : ℚ), loc⟩
  else none

/-- The candidate results in encounter order, as the loops of query
produce them: for each namespace in scope, first the live WAL entries
(location wal), then each shard file in enumeration order (location =
shard stem), skipping blank and malformed lines. -/
def collect (st : MemState) (q : String) (nsArg : Option String) :
    List QResult :=
  (scopeNs nsArg).flatMap (fun n =>
    (parseEntries ((st.wals.lookup n).getD [])).filterMap
      (mkRes (tokenSet q) n "wal") ++
    (st.shards.filter (fun sf => sf.ns == n)).flatMap (fun sf =>
      (parseEntries sf.lines).filterMap (mkRes (tokenSet q) n sf.stem)))

/-- Stable descending insertion: place x after every element whose
score is at least x's, before the first strictly smaller one. -/
def insD (x : QResult) : List QResult → List QResult
  | [] => [x]
  | y :: ys => if y.score < x.score then x :: y :: ys else y :: insD x ys

/-- Stable sort by score descending (the semantics of Python
list.sort with a score key and reverse=True, which is stable). -/
def sortD (l : List QResult) : List QResult :=
  l.foldl (fun acc x => insD x acc) []

/-- Model of AuraMemoryOS.query: gather candidates in encounter order,
sort by score descending (stably), return the first top_k. -/
def queryModel (st : MemState) (q : String) (nsArg : Option String)
    (k : Nat) : List QResult :=
  (sortD (collect st q nsArg)).take k

/-- Scores are pairwise non-increasing along the list. -/
def SortedD (l : List QResult) : Prop :=
  List.Pairwise (fun a b => b.score ≤ a.score) l

/-- The results of a given exact score, in order. -/
def filterScore (x : ℚ) (l : List QResult) : List QResult :=
  l.filter (fun r => decide (r.score = x))

/-- Insertion yields a permutation of consing. -/
theorem insD_perm (x : QResult) (l : List QResult) :
    (insD x l).Perm (x :: l) := by
  induction l with
  | nil => exact List.Perm.refl _
  | cons y ys ih =>
    rw [insD]
    by_cases h : y.score < x.score
    · rw [if_pos h]
    · rw [if_neg h]
      exact (ih.cons y).trans (List.Perm.swap x y ys)

/-- Sorting yields a permutation of the input. -/
theorem sortD_perm (l : List QResult) : (sortD l).Perm l := by
  suffices h : ∀ (l acc : List QResult),
      (l.foldl (fun acc x => insD x acc) acc).Perm (acc ++ l) by
    simpa using h l []
  intro l
  induction l with
  | nil => intro acc; simp
  | cons x l ih =>
    intro acc
    rw [List.foldl_cons]
    refine (ih (insD x acc)).trans ?_
    refine (((insD_perm x acc).append_right l).trans ?_)
    exact List.perm_middle.symm

/-- Insertion preserves descending sortedness. -/
theorem insD_sorted {x : QResult} {l : List QResult} (h : SortedD l) :
    SortedD (insD x l) := by
  induction l with
  | nil => exact List.pairwise_singleton _ _
  | cons y ys ih =>
    rw [insD]
    rcases List.pairwise_cons.mp h with ⟨hy, hys⟩
    by_cases hxy : y.score < x.score
    · rw [if_pos hxy]
      refine List.pairwise_cons.mpr ⟨?_, h⟩
      intro z hz
      rcases List.mem_cons.mp hz with rfl | hz
      · exact le_of_lt hxy
      · exact (hy z hz).trans (le_of_lt hxy)
    · rw [if_neg hxy]
      refine List.pairwise_cons.mpr ⟨?_, ih hys⟩
      intro z hz
      have : z ∈ x :: ys := (insD_perm x ys).mem_iff.mp hz
      rcases List.mem_cons.mp this with rfl | hz2
      · exact not_lt.mp hxy
      · exact hy z hz2

/-- Inserting an element of score s into a sorted list appends it to
the score-s segment: insertion is stable for equal scores. -/
theorem insD_filter_eq {x : QResult} {l : List QResult} {s : ℚ}
    (h : SortedD l) (hx : x.score = s) :
    filterScore s (insD x l) = filterScore s l ++ [x] := by
  induction l with
  | nil => simp [insD, filterScore, hx]
  | cons y ys ih =>
    rcases List.pairwise_cons.mp h with ⟨hy, hys⟩
    have ih2 := ih hys
    simp only [filterScore] at ih2 ⊢
    rw [insD]
    by_cases hxy : y.score < x.score
    · rw [if_pos hxy]
      have hnil : List.filter (fun r => decide (r.score = s)) (y :: ys) = [] := by
        refine List.filter_eq_nil_iff.mpr ?_
        intro z hz
        simp only [decide_eq_true_eq]
        intro hzs
        rcases List.mem_cons.mp hz with rfl | hz2
        · rw [hzs] at hxy
          rw [hx] at hxy
          exact lt_irrefl s hxy
        · have hle := hy z hz2
          rw [hzs] at hle
          have hxs : y.score < s := by
            rw [← hx]
            exact hxy
          exact absurd (lt_of_le_of_lt hle hxs) (lt_irrefl s)
      rw [hnil, List.filter_cons]
      simp [hx, hnil]
    · rw [if_neg hxy, List.filter_cons, List.filter_cons]
      by_cases hy2 : y.score = s
      · simp [hy2, ih2]
      · simp [hy2, ih2]

/-- Inserting an element of a different score leaves the score-s
segment unchanged. -/
theorem insD_filter_ne {x : QResult} {l : List QResult} {s : ℚ}
    (hx : x.score ≠ s) :
    filterScore s (insD x l) = filterScore s l := by
  induction l with
  | nil => simp [insD, filterScore, hx]
  | cons y ys ih =>
    simp only [filterScore] at ih ⊢
    rw [insD]
    by_cases hxy : y.score < x.score
    · rw [if_pos hxy, List.filter_cons, List.filter_cons]
      simp [hx]
    · rw [if_neg hxy, List.filter_cons, List.filter_cons]
      by_cases hy2 : y.score = s
      · simp [hy2, ih]
      · simp [hy2, ih]

/-- The sort produces a descending-sorted list. -/
theorem sortD_sorted (l : List QResult) : SortedD (sortD l) := by
  suffices h : ∀ (l acc : List QResult), SortedD acc →
      SortedD (l.foldl (fun acc x => insD x acc) acc) by
    exact h l [] List.Pairwise.nil
  intro l
  induction l with
  | nil => intro acc hacc; exact hacc
  | cons x l ih =>
    intro acc hacc
    rw [List.foldl_cons]
    exact ih (insD x acc) (insD_sorted hacc)

/-- Stability of the sort: for every score value, the results carrying
exactly that score appear in the sorted output in the same order as in
the input — ties are broken by encounter order. -/
theorem sortD_filter (s : ℚ) (l : List QResult) :
    filterScore s (sortD l) = filterScore s l := by
  suffices h : ∀ (l acc : List QResult), SortedD acc →
      filterScore s (l.foldl (fun acc x => insD x acc) acc) =
        filterScore s acc ++ filterScore s l by
    have h2 := h l [] List.Pairwise.nil
    simpa [filterScore] using h2
  intro l
  induction l with
  | nil => intro acc _; simp [filterScore]
  | cons x l ih =>
    intro acc hacc
    rw [List.foldl_cons, ih (insD x acc) (insD_sorted hacc)]
    by_cases hx : x.score = s
    · rw [insD_filter_eq hacc hx]
      simp [filterScore, List.filter_cons, hx, List.append_assoc]
    · rw [insD_filter_ne hx]
      simp [filterScore, List.filter_cons, hx]

/-- Every produced result records a positive overlap scored as
overlap / |query_words|. -/
theorem mkRes_score {qws : Finset (List Char)} {n loc : String}
    {e : MEntry} {r : QResult} (h : mkRes qws n loc e = some r) :
    ∃ ov : Nat, 0 < ov ∧ r.score = (ov : ℚ) / (qws.card : ℚ) := by
  unfold mkRes at h
  split at h
  · cases h
    exact ⟨(qws ∩ tokenSet e.content).card, by assumption, rfl⟩
  · cases h

/-- Every candidate result has a positive overlap with the query and
carries the overlap / |query_words| score. -/
theorem collect_mem {st : MemState} {q : String} {nsArg : Option String}
    {r : QResult} (h : r ∈ collect st q nsArg) :
    ∃ ov : Nat, 0 < ov ∧ r.score = (ov : ℚ) / (((tokenSet q).card : ℚ)) := by
  simp only [collect, List.mem_flatMap, List.mem_append,
    List.mem_filterMap] at h
  obtain ⟨n, _, h | h⟩ := h
  · obtain ⟨e, _, he⟩ := h
    exact mkRes_score he
  · obtain ⟨sf, _, e, _, he⟩ := h
    exact mkRes_score he

/-- C4: query returns the first top_k of the stable descending sort of
the candidates gathered in encounter order; the output is sorted by
non-increasing score, has at most top_k results, every result is a
candidate with positive overlap scored overlap / |query_words| (zero
overlap never appears), and equal-score results keep their encounter
order (stability). -/
theorem query_ranking_spec (st : MemState) (q : String)
    (nsArg : Option String) (k : Nat) :
    queryModel st q nsArg k = (sortD (collect st q nsArg)).take k ∧
    SortedD (queryModel st q nsArg k) ∧
    (queryModel st q nsArg k).length ≤ k ∧
    (∀ r ∈ queryModel st q nsArg k, r ∈ collect st q nsArg ∧
      ∃ ov : Nat, 0 < ov ∧ r.score = (ov : ℚ) / (((tokenSet q).card : ℚ))) ∧
    (∀ x : ℚ, filterScore x (sortD (collect st q nsArg)) =
      filterScore x (collect st q nsArg)) := by
  refine ⟨rfl, ?_, List.length_take_le k _, ?_, fun x => sortD_filter x _⟩
  · exact List.Pairwise.sublist (List.take_sublist k _) (sortD_sorted _)
  · intro r hr
    have hmem : r ∈ collect st q nsArg :=
      (sortD_perm _).mem_iff.mp (List.mem_of_mem_take hr)
    exact ⟨hmem, collect_mem hmem⟩

/-- C10: a query whose tokenization is the empty word set (empty or
all-whitespace text) matches nothing — every entry has overlap 0 with
the empty set, is excluded before the score division, and the result
list is empty. -/
theorem query_empty_spec (st : MemState) (q : String)
    (nsArg : Option String) (k : Nat) (h : tokenSet q = ∅) :
    queryModel st q nsArg k = [] := by
  have hm : ∀ (n loc : String) (e : MEntry),
      mkRes (tokenSet q) n loc e = none := by
    intro n loc e
    rw [mkRes, h]
    simp
  have hc : collect st q nsArg = [] := by
    simp [collect, hm]
  rw [queryModel, hc]
  simp [sortD]

/-- Witness for C10 at a concrete store with one entry and a
whitespace-only query. -/
theorem query_empty_spec_witness :
    queryModel ⟨[("pad", [WalLine.ok entA])], []⟩ " " none 5 = [] :=
  query_empty_spec ⟨[("pad", [WalLine.ok entA])], []⟩ " " none 5 (by decide)

/-- A shard file as prune_shards sees it: namespace directory, file
stem, modification time and size. -/
structure ShardFile where
  ns : String
  stem : String
  mtime : Nat
  size : Nat
deriving DecidableEq

/-- Failure condition of prune_shards: the before_date string cannot
be parsed as YYYY-MM-DD. -/
inductive PruneErr
  | invalidDateFormat
deriving DecidableEq

/-- Outcome of a prune call: normal completion with the list of
deleted shards in deletion order, or an abort carrying the deletions
performed before the abort (none may follow it). -/
inductive POut where
  | ok (deleted : List ShardFile)
  | err (e : PruneErr) (deletedSoFar : List ShardFile)
deriving DecidableEq

/-- The per-shard body of the prune loop: should_delete starts false,
is set when shard_ids is a non-empty list containing the stem; then,
when a before_date is given, it is parsed (strptime, abstracted as the
parameter parse; failure aborts the whole call) and the shard is also
marked when its mtime is before the cutoff. -/
def pruneShard (parse : String → Option Nat) (bd : Option String)
    (ids : Option (List String)) (sh : ShardFile) : Except PruneErr Bool :=
  let sd1 := match ids with
    | some l => decide (l ≠ []) && decide (sh.stem ∈ l)
    | none => false
  match bd with
  | none => Except.ok sd1
  | some d =>
    match parse d with
    | none => Except.error PruneErr.invalidDateFormat
    | some cutoff => Except.ok (sd1 || decide (sh.mtime < cutoff))

/-- The prune loop over the in-scope shard files in iteration order:
each shard is examined and unlinked when marked; a parse failure
aborts immediately, returning the deletions made so far. -/
def pruneGo (parse : String → Option Nat) (bd : Option String)
    (ids : Option (List String)) : List ShardFile → POut
  | [] => POut.ok []
  | sh :: rest =>
    match pruneShard parse bd ids sh with
    | Except.error e => POut.err e []
    | Except.ok true =>
      match pruneGo parse bd ids rest with
      | POut.ok d => POut.ok (sh :: d)
      | POut.err e d => POut.err e (sh :: d)
    | Except.ok false => pruneGo parse bd ids rest

/-- The shard files prune_shards iterates: for each namespace in scope
(the requested one, else all three), the files of that namespace's
shard directory in enumeration order. -/
def inScope (st : List ShardFile) (nsArg : Option String) : List ShardFile :=
  (scopeNs nsArg).flatMap (fun n => st.filter (fun sf => sf.ns == n))

/-- Model of AuraMemoryOS.prune_shards over the store's shard files. -/
def pruneModel (parse : String → Option Nat) (st : List ShardFile)
    (bd : Option String) (ids : Option (List String))
    (nsArg : Option String) : POut :=
  pruneGo parse bd ids (inScope st nsArg)

/-- C7 counterexample: with no shard files at all, prune_shards with
an unparsable before_date completes normally (printing that nothing
matched) instead of failing: the date is only parsed inside the
per-shard loop, which never runs.  This refutes the claim that the
call fails with InvalidDateFormat regardless of how many shards
exist. -/
theorem prune_invalid_date_cex :
    pruneModel (fun _ => none) [] (some "not-a-date") none none =
      POut.ok [] ∧
    (fun _ => (none : Option Nat)) "not-a-date" = none :=
  ⟨rfl, rfl⟩

/-- C7 amended: whenever at least one shard file is in scope, an
unparsable before_date makes prune_shards fail with the
InvalidDateFormat condition on the very first shard examined, with no
shard deleted (no partial deletion), regardless of the shard_ids and
namespace arguments; with no shard in scope the loop body never runs,
so the call completes without error and without deleting anything. -/
theorem prune_invalid_date_amended (parse : String → Option Nat)
    (st : List ShardFile) (d : String) (ids : Option (List String))
    (nsArg : Option String) (hparse : parse d = none)
    (hscope : inScope st nsArg ≠ []) :
    pruneModel parse st (some d) ids nsArg =
      POut.err PruneErr.invalidDateFormat [] := by
  rw [pruneModel]
  cases hsc : inScope st nsArg with
  | nil => exact absurd hsc hscope
  | cons sh rest =>
    simp [pruneGo, pruneShard, hparse]

/-- Witness for the amended C7 at a concrete store holding one shard
and a parser rejecting the concrete date string. -/
theorem prune_invalid_date_amended_witness :
    pruneModel (fun _ => none) [⟨"pad", "x", 0, 0⟩] (some "bad") none none =
      POut.err PruneErr.invalidDateFormat [] :=
  prune_invalid_date_amended (fun _ => none) [⟨"pad", "x", 0, 0⟩] "bad"
    none none rfl (by decide)

/-- Witness for C4 at a concrete store. -/
theorem query_ranking_spec_witness :
    queryModel ⟨[("fact", [WalLine.ok entA])], []⟩ "auth jwt" none 5 =
      (sortD (collect ⟨[("fact", [WalLine.ok entA])], []⟩ "auth jwt" none)).take 5 ∧
    SortedD (queryModel ⟨[("fact", [WalLine.ok entA])], []⟩ "auth jwt" none 5) ∧
    (queryModel ⟨[("fact", [WalLine.ok entA])], []⟩ "auth jwt" none 5).length ≤ 5 ∧
    (∀ r ∈ queryModel ⟨[("fact", [WalLine.ok entA])], []⟩ "auth jwt" none 5,
      r ∈ collect ⟨[("fact", [WalLine.ok entA])], []⟩ "auth jwt" none ∧
      ∃ ov : Nat, 0 < ov ∧
        r.score = (ov : ℚ) / (((tokenSet "auth jwt").card : ℚ))) ∧
    (∀ x : ℚ,
      filterScore x (sortD (collect ⟨[("fact", [WalLine.ok entA])], []⟩ "auth jwt" none)) =
        filterScore x (collect ⟨[("fact", [WalLine.ok entA])], []⟩ "auth jwt" none)) :=
  query_ranking_spec ⟨[("fact", [WalLine.ok entA])], []⟩ "auth jwt" none 5

/-- Witness for C6 at a concrete one-entry batch. -/
theorem wal_accounting_spec_witness :
    (appendAllW walEmpty [entA]).count = ([entA] : List MEntry).length ∧
    (needsFlush (appendAllW walEmpty [entA]) = true ↔
      100 ≤ ([entA] : List MEntry).length) :=
  wal_accounting_spec [entA]
